import Mathlib

/-!
Shallow embedding of the memory-pool simulator (`sim1`), centred on the
`Memory` class shared by `memory.py` and `storage.py` and on the allocator
front-ends of `allocation.py`.

A pool is a pair of same-length arrays: `pages` (the page count of each
block, `self.pages` in the source) and `available` (`True` = free,
`self.available`).  numpy arrays become `List`s; numpy element reads become
`List.getD` (out-of-range reads only arise outside the well-formedness
assumptions stated by each theorem and are noted where they matter);
Python exceptions become `Except PyErr`.
-/

/-- A memory pool: `pages[i]` is block `i`'s page count, `available[i]`
its free flag.  Mirrors the attributes of `Memory` in `memory.py`. -/
structure Memory where
  pages : List Nat
  available : List Bool
  deriving Repr, DecidableEq

/-- Python exceptions that the embedded operations can raise. -/
inductive PyErr where
  | typeErr
  | valueErr
  | indexErr
  deriving Repr, DecidableEq

/-- Block `i` qualifies for the fit search driven by block `b`: it is in
range, free, and its page count is at least `pages[b]` (the target size the
source derives from the argument block). -/
def qualifies (m : Memory) (b i : Nat) : Bool :=
  decide (i < m.pages.length) && m.available.getD i false
    && decide (m.pages.getD b 0 ≤ m.pages.getD i 0)

/-- Least index `k` in `[i, i + fuel)` with `p k = true`.  This is
`min(np.flatnonzero(choices), default=None)` for a predicate array scanned
in ascending index order. -/
def scanIdx (p : Nat → Bool) : Nat → Nat → Option Nat
  | _, 0 => Option.none
  | i, fuel + 1 => if p i then Option.some i else scanIdx p (i + 1) fuel

/-- `Memory.first_fit` (`memory.py` lines 62-65, identical in
`storage.py`): `choices = available * (pages >= pages[b])`, then the least
index where `choices` is nonzero, `None` if there is none. -/
def first_fit (m : Memory) (b : Nat) : Option Nat :=
  scanIdx (fun i => m.available.getD i false
    && decide (m.pages.getD b 0 ≤ m.pages.getD i 0)) 0 m.pages.length

theorem scanIdx_none {p : Nat → Bool} :
    ∀ {fuel i}, scanIdx p i fuel = Option.none ↔
      ∀ k, i ≤ k → k < i + fuel → p k = false := by
  intro fuel
  induction fuel with
  | zero => intro i; simp [scanIdx]; omega
  | succ n ih =>
    intro i
    by_cases h : p i = true
    · simp only [scanIdx, h, if_true]
      constructor
      · intro hc; cases hc
      · intro hall
        have := hall i (Nat.le_refl i) (by omega)
        rw [h] at this; cases this
    · have hb : p i = false := by
        cases hpi : p i
        · rfl
        · exact absurd hpi h
      simp only [scanIdx, hb, Bool.false_eq_true, if_false]
      rw [ih]
      constructor
      · intro hall k hk hk2
        rcases Nat.eq_or_lt_of_le hk with rfl | hlt
        · exact hb
        · exact hall k hlt (by omega)
      · intro hall k hk hk2
        exact hall k (by omega) (by omega)

theorem scanIdx_some {p : Nat → Bool} :
    ∀ {fuel i j}, scanIdx p i fuel = Option.some j ↔
      (i ≤ j ∧ j < i + fuel ∧ p j = true ∧ ∀ k, i ≤ k → k < j → p k = false) := by
  intro fuel
  induction fuel with
  | zero => intro i j; simp [scanIdx]; omega
  | succ n ih =>
    intro i j
    by_cases h : p i = true
    · simp only [scanIdx, h, if_true]
      constructor
      · rintro ⟨rfl⟩
        exact ⟨Nat.le_refl i, by omega, h, fun k hk1 hk2 => by omega⟩
      · rintro ⟨h1, _, _, h4⟩
        rcases Nat.eq_or_lt_of_le h1 with rfl | hlt
        · rfl
        · have := h4 i (Nat.le_refl i) hlt
          rw [h] at this; cases this
    · have hb : p i = false := by
        cases hpi : p i
        · rfl
        · exact absurd hpi h
      simp only [scanIdx, hb, Bool.false_eq_true, if_false]
      rw [ih]
      constructor
      · rintro ⟨h1, h2, h3, h4⟩
        refine ⟨by omega, by omega, h3, ?_⟩
        intro k hk1 hk2
        rcases Nat.eq_or_lt_of_le hk1 with rfl | hlt
        · exact hb
        · exact h4 k hlt hk2
      · rintro ⟨h1, h2, h3, h4⟩
        have hij : i ≠ j := by
          rintro rfl
          rw [h3] at hb; cases hb
        refine ⟨by omega, by omega, h3, ?_⟩
        intro k hk1 hk2
        exact h4 k (by omega) hk2

theorem qualifies_oob (m : Memory) (b i : Nat) (h : m.pages.length ≤ i) :
    qualifies m b i = false := by
  simp [qualifies]
  intro h'
  omega

/-- C5: `first_fit` returns the lowest-indexed free block whose page size
is at least the target (`pages[b]`), and `none` exactly when no free block
qualifies; being a pure function of the pool state, repeated calls without
intervening mutation agree. -/
theorem first_fit_lowest_qualifying (m : Memory) (b : Nat)
    (hwf : m.pages.length = m.available.length) (hb : b < m.pages.length) :
    ((first_fit m b = Option.none ↔ ∀ i, qualifies m b i = false) ∧
      (∀ j, first_fit m b = Option.some j ↔
        (qualifies m b j = true ∧ ∀ k, k < j → qualifies m b k = false)) ∧
      first_fit m b = first_fit m b) := by
  have hq : ∀ i, i < m.pages.length →
      ((m.available.getD i false
        && decide (m.pages.getD b 0 ≤ m.pages.getD i 0)) = qualifies m b i) := by
    intro i hi
    simp [qualifies, hi]
  refine ⟨?_, ?_, rfl⟩
  · rw [first_fit, scanIdx_none]
    constructor
    · intro hall i
      by_cases hi : i < m.pages.length
      · rw [← hq i hi]
        exact hall i (Nat.zero_le i) (by omega)
      · exact qualifies_oob m b i (by omega)
    · intro hall k _ hk
      rw [hq k (by omega)]
      exact hall k
  · intro j
    rw [first_fit, scanIdx_some]
    constructor
    · rintro ⟨_, h2, h3, h4⟩
      rw [hq j (by omega)] at h3
      refine ⟨h3, ?_⟩
      intro k hk
      rw [← hq k (by omega)]
      exact h4 k (Nat.zero_le k) hk
    · rintro ⟨h1, h2⟩
      have hj : j < m.pages.length := by
        by_contra hge
        rw [qualifies_oob m b j (by omega)] at h1
        cases h1
      refine ⟨Nat.zero_le j, by omega, ?_, ?_⟩
      · rw [hq j hj]; exact h1
      · intro k _ hk
        rw [hq k (by omega)]
        exact h2 k hk

/-- C5 witness: on the spec's scenario pool `[5, 10, 5, 20]`, all free,
with target block 1 (pages 10), `first_fit` returns block 1. -/
theorem first_fit_lowest_qualifying_witness :
    ((⟨[5, 10, 5, 20], [true, true, true, true]⟩ : Memory).pages.length =
        (⟨[5, 10, 5, 20], [true, true, true, true]⟩ : Memory).available.length ∧
      1 < (⟨[5, 10, 5, 20], [true, true, true, true]⟩ : Memory).pages.length ∧
      first_fit ⟨[5, 10, 5, 20], [true, true, true, true]⟩ 1 = Option.some 1) := by
  refine ⟨rfl, by decide, ?_⟩
  have h := (first_fit_lowest_qualifying
    ⟨[5, 10, 5, 20], [true, true, true, true]⟩ 1 rfl (by decide)).2.1 1
  exact h.mpr ⟨by decide, by decide⟩

/-- Strict order on choice values where `Option.none` plays the role of
`np.inf` (greater than every finite value). -/
def ltInf : Option Int → Option Int → Bool
  | Option.some a, Option.some b => decide (a < b)
  | Option.some _, Option.none => true
  | Option.none, _ => false

theorem ltInf_irrefl (a : Option Int) : ltInf a a = false := by
  cases a <;> simp [ltInf]

theorem ltInf_asymm {a b : Option Int} (h : ltInf a b = true) :
    ltInf b a = false := by
  cases a <;> cases b <;> simp_all [ltInf] <;> omega

theorem ltInf_trans {a b c : Option Int} (h1 : ltInf a b = true)
    (h2 : ltInf b c = true) : ltInf a c = true := by
  cases a <;> cases b <;> cases c <;> simp_all [ltInf] <;> omega

theorem ltInf_lt_of_not_lt {a b c : Option Int} (h1 : ltInf a b = true)
    (h2 : ltInf c b = false) : ltInf a c = true := by
  cases a <;> cases b <;> cases c <;> simp_all [ltInf] <;> omega

/-- Running-minimum scan underlying `np.argmin`: `best` is the index of the
current minimum `bv`; a later element replaces it only when strictly
smaller, so the first occurrence of the minimum wins. -/
def argminInfAux : List (Option Int) → Nat → Nat → Option Int → Nat
  | [], _, best, _ => best
  | x :: xs, i, best, bv =>
    if ltInf x bv then argminInfAux xs (i + 1) i x
    else argminInfAux xs (i + 1) best bv

/-- `np.argmin` over values in which `Option.none` stands for `np.inf`;
on an all-`inf` array it returns index 0, and `numpy` raises on an empty
array (unreachable here: `best_fit` guards on `choices.size > 0`). -/
def argminInf : List (Option Int) → Nat
  | [] => 0
  | x :: xs => argminInfAux xs 1 0 x

theorem argminInfAux_spec :
    ∀ (l : List (Option Int)) (i best : Nat) (bv : Option Int),
      (argminInfAux l i best bv = best ∧
        ∀ k, k < l.length → ltInf (l.getD k Option.none) bv = false) ∨
      (∃ k, k < l.length ∧ argminInfAux l i best bv = i + k ∧
        ltInf (l.getD k Option.none) bv = true ∧
        (∀ j, j < l.length →
          ltInf (l.getD j Option.none) (l.getD k Option.none) = false) ∧
        (∀ j, j < k →
          ltInf (l.getD k Option.none) (l.getD j Option.none) = true)) := by
  intro l
  induction l with
  | nil =>
    intro i best bv
    left
    exact ⟨rfl, by simp⟩
  | cons x xs ih =>
    intro i best bv
    by_cases hx : ltInf x bv = true
    · simp only [argminInfAux, hx, if_true]
      rcases ih (i + 1) i x with ⟨heq, hall⟩ | ⟨k, hk, heq, hlt, hmin, hfirst⟩
      · right
        refine ⟨0, by simp, by omega, by simpa using hx, ?_, ?_⟩
        · intro j hj
          match j with
          | 0 => simpa using ltInf_irrefl x
          | j + 1 =>
            simp only [List.getD_cons_succ, List.getD_cons_zero]
            exact hall j (by simpa using hj)
        · intro j hj; omega
      · right
        refine ⟨k + 1, by simpa using hk, by omega, ?_, ?_, ?_⟩
        · simp only [List.getD_cons_succ]
          exact ltInf_trans hlt hx
        · intro j hj
          match j with
          | 0 =>
            simp only [List.getD_cons_succ, List.getD_cons_zero]
            exact ltInf_asymm hlt
          | j + 1 =>
            simp only [List.getD_cons_succ]
            exact hmin j (by simpa using hj)
        · intro j hj
          match j with
          | 0 =>
            simp only [List.getD_cons_succ, List.getD_cons_zero]
            exact hlt
          | j + 1 =>
            simp only [List.getD_cons_succ]
            exact hfirst j (by omega)
    · have hxf : ltInf x bv = false := by
        cases h : ltInf x bv
        · rfl
        · exact absurd h hx
      simp only [argminInfAux, hxf, Bool.false_eq_true, if_false]
      rcases ih (i + 1) best bv with ⟨heq, hall⟩ | ⟨k, hk, heq, hlt, hmin, hfirst⟩
      · left
        refine ⟨heq, ?_⟩
        intro k hk
        match k with
        | 0 => simpa using hxf
        | k + 1 =>
          simp only [List.getD_cons_succ]
          exact hall k (by simpa using hk)
      · right
        refine ⟨k + 1, by simpa using hk, by omega, ?_, ?_, ?_⟩
        · simpa using hlt
        · intro j hj
          match j with
          | 0 =>
            simp only [List.getD_cons_succ, List.getD_cons_zero]
            cases h : ltInf x (xs.getD k Option.none)
            · rfl
            · have := ltInf_trans h hlt
              rw [this] at hxf; cases hxf
          | j + 1 =>
            simp only [List.getD_cons_succ]
            exact hmin j (by simpa using hj)
        · intro j hj
          match j with
          | 0 =>
            simp only [List.getD_cons_succ, List.getD_cons_zero]
            exact ltInf_lt_of_not_lt hlt hxf
          | j + 1 =>
            simp only [List.getD_cons_succ]
            exact hfirst j (by omega)

theorem argminInf_spec (l : List (Option Int)) (hne : l ≠ []) :
    (argminInf l < l.length ∧
      (∀ k, k < l.length →
        ltInf (l.getD k Option.none) (l.getD (argminInf l) Option.none) = false) ∧
      (∀ k, k < argminInf l →
        ltInf (l.getD (argminInf l) Option.none) (l.getD k Option.none) = true)) := by
  match l with
  | [] => exact absurd rfl hne
  | x :: xs =>
    simp only [argminInf]
    rcases argminInfAux_spec xs 1 0 x with ⟨heq, hall⟩ | ⟨k, hk, heq, hlt, hmin, hfirst⟩
    · rw [heq]
      refine ⟨by simp, ?_, ?_⟩
      · intro j hj
        match j with
        | 0 => simpa using ltInf_irrefl x
        | j + 1 =>
          simp only [List.getD_cons_succ, List.getD_cons_zero]
          exact hall j (by simpa using hj)
      · intro j hj; omega
    · rw [Nat.add_comm 1 k] at heq
      rw [heq]
      refine ⟨by simpa using Nat.succ_lt_succ hk, ?_, ?_⟩
      · intro j hj
        match j with
        | 0 =>
          simp only [List.getD_cons_succ, List.getD_cons_zero]
          exact ltInf_asymm hlt
        | j + 1 =>
          simp only [List.getD_cons_succ]
          exact hmin j (by simpa using hj)
      · intro j hj
        match j with
        | 0 =>
          simp only [List.getD_cons_succ, List.getD_cons_zero]
          exact hlt
        | j + 1 =>
          simp only [List.getD_cons_succ]
          exact hfirst j (by omega)

/-- One entry of `best_fit`'s `choices` array:
`(pages[i] - t + 1) * available[i] * (pages[i] >= t)` with
`t = pages[b]`, booleans multiplying as 0/1 as numpy does. -/
def choiceVal (m : Memory) (t : Int) (i : Nat) : Int :=
  ((m.pages.getD i 0 : Int) - t + 1)
    * (if m.available.getD i false then 1 else 0)
    * (if t ≤ (m.pages.getD i 0 : Int) then 1 else 0)

/-- `Memory.best_fit` (`memory.py` lines 67-80, identical in `storage.py`):
`diff = pages - pages[b] + 1`, `choices = diff * available *
(pages >= pages[b])`, then (since `choices.size > 0` whenever the pool has
at least one block) the `argmin` of `np.where(choices > 0, choices,
np.inf)`; only a zero-block pool reaches the `None` branch. -/
def best_fit (m : Memory) (b : Nat) : Option Nat :=
  let choices := (List.range m.pages.length).map
    (choiceVal m (m.pages.getD b 0 : Int))
  if 0 < choices.length then
    Option.some (argminInf (choices.map
      (fun c => if 0 < c then Option.some c else Option.none)))
  else
    Option.none

theorem qualifies_iff (m : Memory) (b k : Nat) :
    qualifies m b k = true ↔
      (k < m.pages.length ∧ m.available.getD k false = true ∧
        m.pages.getD b 0 ≤ m.pages.getD k 0) := by
  rw [qualifies, Bool.and_eq_true, Bool.and_eq_true, decide_eq_true_iff,
    decide_eq_true_iff]
  tauto

theorem choiceVal_of_qual (m : Memory) (b k : Nat)
    (hq : qualifies m b k = true) :
    choiceVal m (m.pages.getD b 0 : Int) k
      = (m.pages.getD k 0 : Int) - (m.pages.getD b 0 : Int) + 1 := by
  obtain ⟨-, ha, hp⟩ := (qualifies_iff m b k).mp hq
  have hpi : ((m.pages.getD b 0 : Int)) ≤ (m.pages.getD k 0 : Int) := by
    exact_mod_cast hp
  rw [choiceVal, if_pos ha, if_pos hpi, mul_one, mul_one]

theorem choiceVal_pos_iff (m : Memory) (b k : Nat) (hk : k < m.pages.length) :
    (0 < choiceVal m (m.pages.getD b 0 : Int) k ↔ qualifies m b k = true) := by
  constructor
  · intro hpos
    rw [qualifies_iff]
    refine ⟨hk, ?_, ?_⟩
    · by_contra ha
      rw [choiceVal, if_neg ha, mul_zero, zero_mul] at hpos
      omega
    · by_contra hp
      have hpi : ¬ ((m.pages.getD b 0 : Int)) ≤ (m.pages.getD k 0 : Int) := by
        exact_mod_cast hp
      rw [choiceVal, if_neg hpi, mul_zero] at hpos
      omega
  · intro hq
    rw [choiceVal_of_qual m b k hq]
    obtain ⟨-, -, hp⟩ := (qualifies_iff m b k).mp hq
    have hpi : ((m.pages.getD b 0 : Int)) ≤ (m.pages.getD k 0 : Int) := by
      exact_mod_cast hp
    omega

theorem best_fit_elem (m : Memory) (b k : Nat) (hk : k < m.pages.length) :
    (((List.range m.pages.length).map
        (choiceVal m (m.pages.getD b 0 : Int))).map
      (fun c => if 0 < c then Option.some c else Option.none)).getD k Option.none
    = if qualifies m b k = true then
        Option.some (choiceVal m (m.pages.getD b 0 : Int) k)
      else Option.none := by
  rw [List.map_map]
  rw [List.getD_eq_getElem _ _ (by simpa using hk)]
  simp only [List.getElem_map, List.getElem_range, Function.comp_apply]
  by_cases hq : qualifies m b k = true
  · rw [if_pos ((choiceVal_pos_iff m b k hk).mpr hq), if_pos hq]
  · rw [if_neg, if_neg hq]
    intro hpos
    exact hq ((choiceVal_pos_iff m b k hk).mp hpos)

/-- C1 (amended): when some free block has page size at least the target,
`best_fit` returns the qualifying free block of minimal page size, lowest
index first among ties; but when no free block qualifies it returns block 0
(the `argmin` of an all-`inf` array), not `none` — `none` needs a
zero-block pool. -/
theorem best_fit_tightest_or_zero (m : Memory) (b : Nat)
    (hwf : m.pages.length = m.available.length) (hb : b < m.pages.length) :
    (((∃ i, qualifies m b i = true) →
        ∃ j, best_fit m b = Option.some j ∧ qualifies m b j = true ∧
          (∀ k, qualifies m b k = true → m.pages.getD j 0 ≤ m.pages.getD k 0) ∧
          (∀ k, qualifies m b k = true →
            m.pages.getD k 0 = m.pages.getD j 0 → j ≤ k)) ∧
      ((∀ i, qualifies m b i = false) → best_fit m b = Option.some 0)) := by
  set L := (((List.range m.pages.length).map
      (choiceVal m (m.pages.getD b 0 : Int))).map
    (fun c => if 0 < c then Option.some c else Option.none)) with hL
  have hlen : L.length = m.pages.length := by
    rw [hL]; simp
  have hbf : best_fit m b = Option.some (argminInf L) := by
    rw [best_fit]
    have h0 : 0 < ((List.range m.pages.length).map
        (choiceVal m (m.pages.getD b 0 : Int))).length := by
      simp only [List.length_map, List.length_range]
      omega
    simp only [h0, if_true]
  have hne : L ≠ [] := by
    intro h
    rw [h] at hlen
    simp at hlen
    omega
  obtain ⟨hrlt, hmin, hfirst⟩ := argminInf_spec L hne
  rw [hlen] at hrlt
  constructor
  · rintro ⟨i0, hi0⟩
    have hi0lt : i0 < m.pages.length := by
      by_contra hge
      rw [qualifies_oob m b i0 (by omega)] at hi0
      cases hi0
    have hEi0 := best_fit_elem m b i0 hi0lt
    rw [hi0, if_pos rfl, ← hL] at hEi0
    have hmin0 := hmin i0 (by omega)
    rw [hEi0] at hmin0
    have hEr := best_fit_elem m b (argminInf L) hrlt
    rw [← hL] at hEr
    by_cases hqr : qualifies m b (argminInf L) = true
    · rw [if_pos hqr] at hEr
      refine ⟨argminInf L, hbf, hqr, ?_, ?_⟩
      · intro k hk
        have hklt : k < m.pages.length := by
          by_contra hge
          rw [qualifies_oob m b k (by omega)] at hk
          cases hk
        have hEk := best_fit_elem m b k hklt
        rw [hk, if_pos rfl, ← hL] at hEk
        have hm := hmin k (by omega)
        rw [hEk, hEr] at hm
        rw [choiceVal_of_qual m b k hk, choiceVal_of_qual m b (argminInf L) hqr]
          at hm
        simp only [ltInf, decide_eq_false_iff_not, not_lt] at hm
        have hcast : ((m.pages.getD (argminInf L) 0 : Int)) ≤
            (m.pages.getD k 0 : Int) := by omega
        exact_mod_cast hcast
      · intro k hk hkeq
        by_contra hlt
        have hklt : k < argminInf L := by omega
        have hklen : k < m.pages.length := by omega
        have hEk := best_fit_elem m b k hklen
        rw [hk, if_pos rfl, ← hL] at hEk
        have hf := hfirst k hklt
        rw [hEk, hEr] at hf
        rw [choiceVal_of_qual m b k hk, choiceVal_of_qual m b (argminInf L) hqr]
          at hf
        simp only [ltInf, decide_eq_true_eq] at hf
        have h1 : (m.pages.getD (argminInf L) 0 : Int) <
            (m.pages.getD k 0 : Int) := by omega
        have h2 : m.pages.getD (argminInf L) 0 < m.pages.getD k 0 := by
          exact_mod_cast h1
        omega
    · rw [if_neg hqr] at hEr
      rw [hEr] at hmin0
      simp [ltInf] at hmin0
  · intro hall
    rw [hbf]
    have hr0 : argminInf L = 0 := by
      by_contra hne0
      have h0lt : 0 < argminInf L := by omega
      have hf := hfirst 0 h0lt
      have hE0 := best_fit_elem m b 0 (by omega)
      rw [hall 0] at hE0
      rw [if_neg (by simp), ← hL] at hE0
      have hEr := best_fit_elem m b (argminInf L) hrlt
      rw [hall (argminInf L)] at hEr
      rw [if_neg (by simp), ← hL] at hEr
      rw [hE0, hEr] at hf
      simp [ltInf] at hf
    rw [hr0]

/-- C1 counterexample: a one-block pool whose only block is allocated has
no qualifying free block, yet `best_fit` returns block 0 rather than
`none` (the claim requires `none` here). -/
theorem best_fit_none_counterexample :
    (best_fit ⟨[10], [false]⟩ 0 = Option.some 0 ∧
      best_fit ⟨[10], [false]⟩ 0 ≠ Option.none ∧
      ∀ i, i < 1 → qualifies ⟨[10], [false]⟩ 0 i = false) := by
  refine ⟨by decide, by decide, by decide⟩

/-- C1 witness: on the spec's scenario pool `[5, 10, 5, 20]`, all free,
target block 1 (pages 10), some block qualifies and `best_fit` picks a
tightest qualifying block of lowest index. -/
theorem best_fit_tightest_or_zero_witness :
    ((⟨[5, 10, 5, 20], [true, true, true, true]⟩ : Memory).pages.length =
        (⟨[5, 10, 5, 20], [true, true, true, true]⟩ : Memory).available.length ∧
      1 < (⟨[5, 10, 5, 20], [true, true, true, true]⟩ : Memory).pages.length ∧
      ((∃ i, qualifies ⟨[5, 10, 5, 20], [true, true, true, true]⟩ 1 i = true) →
        ∃ j, best_fit ⟨[5, 10, 5, 20], [true, true, true, true]⟩ 1 =
            Option.some j ∧
          qualifies ⟨[5, 10, 5, 20], [true, true, true, true]⟩ 1 j = true ∧
          (∀ k, qualifies ⟨[5, 10, 5, 20], [true, true, true, true]⟩ 1 k = true →
            (⟨[5, 10, 5, 20], [true, true, true, true]⟩ : Memory).pages.getD j 0 ≤
              (⟨[5, 10, 5, 20], [true, true, true, true]⟩ : Memory).pages.getD k 0) ∧
          (∀ k, qualifies ⟨[5, 10, 5, 20], [true, true, true, true]⟩ 1 k = true →
            (⟨[5, 10, 5, 20], [true, true, true, true]⟩ : Memory).pages.getD k 0 =
              (⟨[5, 10, 5, 20], [true, true, true, true]⟩ : Memory).pages.getD j 0 →
            j ≤ k))) := by
  exact ⟨rfl, by decide,
    (best_fit_tightest_or_zero ⟨[5, 10, 5, 20], [true, true, true, true]⟩ 1
      rfl (by decide)).1⟩

/-- Indices of the free blocks in ascending order:
`np.flatnonzero(self.available)`. -/
def freeIdx (m : Memory) : List Nat :=
  (List.range m.available.length).filter (fun i => m.available.getD i false)

/-- Inner loop of the `np.split(available, split_at + 1)` grouping used by
`Memory.contiguous`: `prev` is the last index consumed and `cur` the
current run (reversed); a new run starts exactly where the successive
difference is not 1. -/
def groupRunsAux (prev : Nat) (cur : List Nat) : List Nat → List (List Nat)
  | [] => [cur.reverse]
  | y :: ys =>
    if y = prev + 1 then groupRunsAux y (y :: cur) ys
    else cur.reverse :: groupRunsAux y [y] ys

/-- `np.split(available, np.flatnonzero(np.diff(available) != 1) + 1)`:
splits the ascending index list into maximal runs of consecutive values.
On the empty list `np.split` yields a single empty array. -/
def groupRuns : List Nat → List (List Nat)
  | [] => [[]]
  | x :: xs => groupRunsAux x [x] xs

theorem groupRunsAux_flatten :
    ∀ (l : List Nat) (prev : Nat) (cur : List Nat),
      (groupRunsAux prev cur l).flatten = cur.reverse ++ l := by
  intro l
  induction l with
  | nil => intro prev cur; simp [groupRunsAux]
  | cons y ys ih =>
    intro prev cur
    by_cases h : y = prev + 1
    · rw [groupRunsAux, if_pos h, ih]
      simp
    · rw [groupRunsAux, if_neg h]
      simp only [List.flatten_cons, ih]
      simp

theorem groupRuns_flatten (xs : List Nat) : (groupRuns xs).flatten = xs := by
  match xs with
  | [] => simp [groupRuns]
  | x :: xs => rw [groupRuns, groupRunsAux_flatten]; simp

theorem groupRunsAux_ne_nil :
    ∀ (l : List Nat) (prev : Nat) (cur : List Nat), cur ≠ [] →
      ∀ r ∈ groupRunsAux prev cur l, r ≠ [] := by
  intro l
  induction l with
  | nil =>
    intro prev cur hcur r hr
    simp only [groupRunsAux, List.mem_singleton] at hr
    subst hr
    simpa using hcur
  | cons y ys ih =>
    intro prev cur hcur r hr
    by_cases h : y = prev + 1
    · rw [groupRunsAux, if_pos h] at hr
      exact ih y (y :: cur) (by simp) r hr
    · rw [groupRunsAux, if_neg h] at hr
      rcases List.mem_cons.mp hr with rfl | hr'
      · simpa using hcur
      · exact ih y [y] (by simp) r hr'

theorem groupRuns_ne_nil (x : Nat) (xs : List Nat) :
    ∀ r ∈ groupRuns (x :: xs), r ≠ [] := by
  intro r hr
  exact groupRunsAux_ne_nil xs x [x] (by simp) r hr

theorem groupRunsAux_split :
    ∀ (l : List Nat) (prev : Nat) (cur : List Nat) (y : Nat) (vs : List Nat),
      y ≠ l.getLastD prev + 1 →
      groupRunsAux prev cur (l ++ y :: vs)
        = groupRunsAux prev cur l ++ groupRuns (y :: vs) := by
  intro l
  induction l with
  | nil =>
    intro prev cur y vs hy
    rw [List.getLastD_nil] at hy
    show groupRunsAux prev cur (y :: vs) = [cur.reverse] ++ groupRuns (y :: vs)
    rw [groupRunsAux, if_neg hy]
    rfl
  | cons z zs ih =>
    intro prev cur y vs hy
    rw [List.getLastD_cons] at hy
    by_cases h : z = prev + 1
    · rw [List.cons_append, groupRunsAux, if_pos h, groupRunsAux, if_pos h]
      exact ih z (z :: cur) y vs hy
    · rw [List.cons_append, groupRunsAux, if_neg h, groupRunsAux, if_neg h]
      rw [ih z [z] y vs hy]
      rfl

theorem groupRunsAux_consec :
    ∀ (n prev : Nat) (cur : List Nat),
      groupRunsAux prev cur (List.range' (prev + 1) n)
        = [cur.reverse ++ List.range' (prev + 1) n] := by
  intro n
  induction n with
  | zero => intro prev cur; simp [groupRunsAux]
  | succ k ih =>
    intro prev cur
    rw [List.range'_succ, groupRunsAux, if_pos rfl, ih (prev + 1) ((prev + 1) :: cur)]
    simp

theorem groupRuns_consec (s n : Nat) (hn : 0 < n) :
    groupRuns (List.range' s n) = [List.range' s n] := by
  match n, hn with
  | k + 1, _ =>
    rw [List.range'_succ, groupRuns, groupRunsAux_consec k s [s]]
    simp [List.range'_succ]

theorem mem_range1 {s n x : Nat} : x ∈ List.range' s n ↔ (s ≤ x ∧ x < s + n) := by
  rw [List.mem_range']
  constructor
  · rintro ⟨i, hi, rfl⟩
    omega
  · intro h
    exact ⟨x - s, by omega, by omega⟩

/-- Availability of block `i` (`self.available[i]`), false past the end of
the array. -/
def freeAt (m : Memory) (i : Nat) : Bool := m.available.getD i false

/-- Spec-side description of a contiguous free region (spec §3
"ContiguousRegion", glossary "maximal run of index-adjacent blocks"): the
start of the maximal free run containing `b` (meaningful when `b` is
free). -/
def regionLeft (m : Memory) : Nat → Nat
  | 0 => 0
  | b + 1 => if freeAt m b then regionLeft m b else b + 1

def regionRightAux (m : Memory) : Nat → Nat → Nat
  | b, 0 => b
  | b, fuel + 1 => if freeAt m (b + 1) then regionRightAux m (b + 1) fuel else b

/-- Spec-side description: the last index of the maximal free run
containing `b` (meaningful when `b` is free).  `available.length` steps of
fuel suffice because no free index reaches that far. -/
def regionRight (m : Memory) (b : Nat) : Nat :=
  regionRightAux m b m.available.length

theorem freeAt_oob (m : Memory) (i : Nat) (h : m.available.length ≤ i) :
    freeAt m i = false := by
  rw [freeAt, List.getD_eq_default _ _ h]

theorem freeAt_lt (m : Memory) (i : Nat) (h : freeAt m i = true) :
    i < m.available.length := by
  by_contra hge
  rw [freeAt_oob m i (by omega)] at h
  cases h

theorem regionLeft_le (m : Memory) (b : Nat) : regionLeft m b ≤ b := by
  induction b with
  | zero => exact Nat.le_refl 0
  | succ n ih =>
    rw [regionLeft]
    by_cases h : freeAt m n = true
    · rw [if_pos h]; omega
    · rw [if_neg h]

theorem regionLeft_free (m : Memory) (b : Nat) (hb : freeAt m b = true) :
    ∀ k, regionLeft m b ≤ k → k ≤ b → freeAt m k = true := by
  induction b with
  | zero =>
    intro k h1 h2
    have : k = 0 := by omega
    subst this
    exact hb
  | succ n ih =>
    intro k h1 h2
    rw [regionLeft] at h1
    by_cases h : freeAt m n = true
    · rw [if_pos h] at h1
      rcases Nat.lt_or_ge k (n + 1) with hk | hk
      · exact ih h k h1 (by omega)
      · have : k = n + 1 := by omega
        subst this
        exact hb
    · rw [if_neg h] at h1
      have : k = n + 1 := by omega
      subst this
      exact hb

theorem regionLeft_boundary (m : Memory) (b : Nat) :
    regionLeft m b = 0 ∨ freeAt m (regionLeft m b - 1) = false := by
  induction b with
  | zero => exact Or.inl rfl
  | succ n ih =>
    rw [regionLeft]
    by_cases h : freeAt m n = true
    · rw [if_pos h]
      exact ih
    · rw [if_neg h]
      right
      simpa using (by simpa using h : freeAt m n = false)

theorem regionRightAux_spec (m : Memory) :
    ∀ (fuel b : Nat),
      (b ≤ regionRightAux m b fuel ∧ regionRightAux m b fuel ≤ b + fuel ∧
        (∀ k, b < k → k ≤ regionRightAux m b fuel → freeAt m k = true) ∧
        (freeAt m (regionRightAux m b fuel + 1) = false ∨
          regionRightAux m b fuel = b + fuel)) := by
  intro fuel
  induction fuel with
  | zero =>
    intro b
    simp only [regionRightAux]
    refine ⟨Nat.le_refl b, by omega, ?_, Or.inr (by omega)⟩
    intro k h1 h2
    omega
  | succ n ih =>
    intro b
    rw [regionRightAux]
    by_cases h : freeAt m (b + 1) = true
    · rw [if_pos h]
      obtain ⟨ih1, ih2, ih3, ih4⟩ := ih (b + 1)
      refine ⟨by omega, by omega, ?_, ?_⟩
      · intro k h1 h2
        rcases Nat.lt_or_ge b (k - 1) with hk | hk
        · exact ih3 k (by omega) h2
        · have : k = b + 1 := by omega
          subst this
          exact h
      · rcases ih4 with h4 | h4
        · exact Or.inl h4
        · right
          omega
    · rw [if_neg h]
      refine ⟨Nat.le_refl b, by omega, ?_, ?_⟩
      · intro k h1 h2
        omega
      · left
        simpa using (by simpa using h : freeAt m (b + 1) = false)

theorem regionRight_spec (m : Memory) (b : Nat) (hb : freeAt m b = true) :
    (b ≤ regionRight m b ∧ regionRight m b < m.available.length ∧
      (∀ k, b ≤ k → k ≤ regionRight m b → freeAt m k = true) ∧
      freeAt m (regionRight m b + 1) = false) := by
  obtain ⟨h1, h2, h3, h4⟩ := regionRightAux_spec m m.available.length b
  rw [regionRight]
  have hblt : b < m.available.length := freeAt_lt m b hb
  have hfree : ∀ k, b ≤ k → k ≤ regionRightAux m b m.available.length →
      freeAt m k = true := by
    intro k hk1 hk2
    rcases Nat.eq_or_lt_of_le hk1 with rfl | hlt
    · exact hb
    · exact h3 k hlt hk2
  have hr : regionRightAux m b m.available.length < m.available.length := by
    by_contra hge
    have := hfree m.available.length (by omega) (by omega)
    rw [freeAt_oob m _ (Nat.le_refl _)] at this
    cases this
  refine ⟨h1, hr, hfree, ?_⟩
  rcases h4 with h4 | h4
  · exact h4
  · omega

/-- The free indices split around the maximal free run of a free block
`b`: indices left of the run, the run itself, indices right of the run. -/
theorem freeIdx_decomp (m : Memory) (b : Nat) (hb : freeAt m b = true) :
    freeIdx m
      = ((List.range (regionLeft m b)).filter (fun i => m.available.getD i false)
        ++ List.range' (regionLeft m b)
            (regionRight m b + 1 - regionLeft m b))
        ++ (List.range' (regionRight m b + 1)
            (m.available.length - (regionRight m b + 1))).filter
          (fun i => m.available.getD i false) := by
  obtain ⟨hbr, hrlt, hfree, hnext⟩ := regionRight_spec m b hb
  have hlb : regionLeft m b ≤ b := regionLeft_le m b
  have hsplit1 : List.range m.available.length
      = List.range (regionLeft m b)
        ++ List.range' (regionLeft m b)
            (m.available.length - regionLeft m b) := by
    rw [List.range_eq_range', List.range_eq_range']
    have h := List.range'_append_1 0 (regionLeft m b)
      (m.available.length - regionLeft m b)
    rw [Nat.zero_add] at h
    rw [show m.available.length - regionLeft m b + regionLeft m b
      = m.available.length by omega] at h
    exact h.symm
  have hsplit2 : List.range' (regionLeft m b)
      (m.available.length - regionLeft m b)
      = List.range' (regionLeft m b) (regionRight m b + 1 - regionLeft m b)
        ++ List.range' (regionRight m b + 1)
            (m.available.length - (regionRight m b + 1)) := by
    have := List.range'_append_1 (regionLeft m b)
      (regionRight m b + 1 - regionLeft m b)
      (m.available.length - (regionRight m b + 1))
    rw [show regionLeft m b + (regionRight m b + 1 - regionLeft m b)
      = regionRight m b + 1 by omega] at this
    rw [this]
    congr 1
    omega
  have hmid : (List.range' (regionLeft m b)
      (regionRight m b + 1 - regionLeft m b)).filter
        (fun i => m.available.getD i false)
      = List.range' (regionLeft m b) (regionRight m b + 1 - regionLeft m b) := by
    rw [List.filter_eq_self]
    intro x hx
    rw [mem_range1] at hx
    have hfx : freeAt m x = true := by
      rcases le_or_lt x b with hxb | hxb
      · exact regionLeft_free m b hb x hx.1 hxb
      · exact hfree x (by omega) (by omega)
    exact hfx
  rw [freeIdx, hsplit1, List.filter_append, hsplit2, List.filter_append, hmid]
  rw [List.append_assoc]

/-- `Memory.contiguous` (`memory.py` lines 137-154): groups the free
indices into maximal consecutive runs (`np.split` at the non-unit
successive differences) and replaces the one-empty-run result (no free
block) by `None`. -/
def contiguous (m : Memory) : Option (List (List Nat)) :=
  let c := groupRuns (freeIdx m)
  if c.length = 1 ∧ (c.headD []).length = 0 then Option.none
  else Option.some c

/-- `Memory.contiguous` as written in `storage.py` (lines 156-171): the
same grouping without the `None` replacement. -/
def contiguousS (m : Memory) : List (List Nat) :=
  groupRuns (freeIdx m)

/-- `np.argmax` of a boolean array: index of the first `true` entry, 0
when every entry is `false` (numpy raises on an empty array; the callers
below always pass a nonempty list). -/
def argmaxBool (l : List Bool) : Nat :=
  (scanIdx (fun i => l.getD i false) 0 l.length).getD 0

/-- Python `b in sub` for a numpy integer array `sub`: elementwise
equality, never any index wraparound; `None` matches nothing. -/
def pyContains (sub : List Nat) : Option Int → Bool
  | Option.none => false
  | Option.some i => sub.any (fun x => (x : Int) == i)

/-- One entry of `selected == b`: elementwise comparison, no wraparound;
`None` matches nothing. -/
def pyEq (x : Nat) : Option Int → Bool
  | Option.none => false
  | Option.some i => ((x : Int) == i)

/-- Python `available[b] = v`: negative indices wrap to `length + b`,
out-of-range indices raise `IndexError`, and `available[None] = v`
broadcast-assigns `v` through the inserted axis to the whole array. -/
def pywrite (l : List Bool) (ob : Option Int) (v : Bool) :
    Except PyErr (List Bool) :=
  match ob with
  | Option.none => Except.ok (l.map (fun _ => v))
  | Option.some i =>
    let j : Int := if i < 0 then (l.length : Int) + i else i
    if 0 ≤ j ∧ j < (l.length : Int) then Except.ok (l.set j.toNat v)
    else Except.error PyErr.indexErr

/-- Return value of `Memory.allocate`: the pre-allocation region page-sum
and, for a multi-block region, the page-sums of the two remaining
sub-regions. -/
structure AllocOut where
  before : Nat
  after : Option (Nat × Nat)
  deriving Repr, DecidableEq

/-- Page-sum of a set of block indices under pool `m`. -/
def pageSum (m : Memory) (idxs : List Nat) : Nat :=
  (idxs.map (fun i => m.pages.getD i 0)).sum

/-- Body of `Memory.allocate` once `selected = contiguous[chunk]` has been
computed (`memory.py` lines 125-135): if the region holds more than one
block, `idx = np.flatnonzero(selected == b).item()` (raising `ValueError`
unless exactly one entry matches), `before = sum(pages)` and `after`
splits the page list at `idx`; otherwise `idx = selected.item()` (raising
`ValueError` on an empty region) and `before = pages[idx]`.  Finally
`self.available[b] = False`.  The source's locals `pgs` stand inlined. -/
def allocateSel (m : Memory) (ob : Option Int) (selected : List Nat) :
    Except PyErr (AllocOut × Memory) :=
  if 1 < selected.length then
    match (List.range selected.length).filter
        (fun k => pyEq (selected.getD k 0) ob) with
    | [k] =>
      (pywrite m.available ob false).map (fun av =>
        (⟨(selected.map (fun i => m.pages.getD i 0)).sum,
          Option.some (((selected.map (fun i => m.pages.getD i 0)).take k).sum,
            ((selected.map (fun i => m.pages.getD i 0)).drop (k + 1)).sum)⟩,
          ⟨m.pages, av⟩))
    | _ => Except.error PyErr.valueErr
  else
    match selected with
    | [r] =>
      (pywrite m.available ob false).map (fun av =>
        (⟨m.pages.getD r 0, Option.none⟩, ⟨m.pages, av⟩))
    | _ => Except.error PyErr.valueErr

/-- `Memory.allocate` (`memory.py` lines 115-135): iterating a `None`
result of `contiguous` raises `TypeError`; otherwise
`chunk = np.argmax([b in sub for sub in contiguous])` picks the first
region containing the argument (0 when none does) and the rest is
`allocateSel`.  The argument is `Option Int` because the allocators pass
the raw selector result, which can be `None`. -/
def allocate (m : Memory) (ob : Option Int) :
    Except PyErr (AllocOut × Memory) :=
  match contiguous m with
  | Option.none => Except.error PyErr.typeErr
  | Option.some rs =>
    allocateSel m ob
      (rs.getD (argmaxBool (rs.map (fun sub => pyContains sub ob))) [])

/-- `Memory.free` (`memory.py` lines 156-158): `self.available[b] = True`
with Python indexing semantics. -/
def free (m : Memory) (b : Int) : Except PyErr Memory :=
  (pywrite m.available (Option.some b) true).map (fun av => ⟨m.pages, av⟩)

theorem argmaxBool_all_false (l : List Bool) (h : ∀ x ∈ l, x = false) :
    argmaxBool l = 0 := by
  rw [argmaxBool]
  have hs : scanIdx (fun i => l.getD i false) 0 l.length = Option.none := by
    rw [scanIdx_none]
    intro k _ hk
    rw [List.getD_eq_getElem _ _ (by omega)]
    exact h _ (List.getElem_mem _)
  rw [hs]
  rfl

theorem argmaxBool_prefix_false (u v : List Bool)
    (hu : ∀ x ∈ u, x = false) :
    argmaxBool (u ++ true :: v) = u.length := by
  rw [argmaxBool]
  have hs : scanIdx (fun i => (u ++ true :: v).getD i false) 0
      (u ++ true :: v).length = Option.some u.length := by
    rw [scanIdx_some]
    refine ⟨Nat.zero_le _, by simp, ?_, ?_⟩
    · rw [List.getD_append_right u (true :: v) false u.length (Nat.le_refl _)]
      simp
    · intro k _ hk
      rw [List.getD_append u (true :: v) false k hk]
      rw [List.getD_eq_getElem _ _ hk]
      exact hu _ (List.getElem_mem _)
  rw [hs]
  rfl

theorem list_set_eq_self :
    ∀ (l : List Bool) (i : Nat), l.getD i false = false → l.set i false = l := by
  intro l
  induction l with
  | nil => intro i _; rfl
  | cons x xs ih =>
    intro i hi
    match i with
    | 0 =>
      rw [List.getD_cons_zero] at hi
      rw [hi]
      rfl
    | i + 1 =>
      rw [List.getD_cons_succ] at hi
      rw [List.set_cons_succ, ih i hi]

theorem getLastD_range' :
    ∀ (k l : Nat), (List.range' (l + 1) k).getLastD l = l + k := by
  intro k
  induction k with
  | zero => intro l; rfl
  | succ n ih =>
    intro l
    rw [List.range'_succ, List.getLastD_cons, ih (l + 1)]
    omega

theorem take_range1 :
    ∀ (n k s : Nat), (List.range' s n).take k = List.range' s (min k n) := by
  intro n
  induction n with
  | zero => intro k s; simp
  | succ h ih =>
    intro k s
    match k with
    | 0 => simp
    | k + 1 =>
      rw [List.range'_succ, List.take_succ_cons, ih k (s + 1)]
      rw [show min (k + 1) (h + 1) = min k h + 1 by omega]
      rw [List.range'_succ]

theorem drop_range1 :
    ∀ (n k s : Nat), (List.range' s n).drop k = List.range' (s + k) (n - k) := by
  intro n
  induction n with
  | zero => intro k s; simp
  | succ h ih =>
    intro k s
    match k with
    | 0 => simp
    | k + 1 =>
      rw [List.range'_succ, List.drop_succ_cons, ih k (s + 1)]
      have e1 : s + 1 + k = s + (k + 1) := by omega
      have e2 : h - k = h + 1 - (k + 1) := by omega
      rw [e1, e2]

theorem filter_range_eq_singleton (p : Nat → Bool) :
    ∀ (n K : Nat), K < n → (∀ k, k < n → (p k = true ↔ k = K)) →
      (List.range n).filter p = [K] := by
  intro n
  induction n with
  | zero => intro K hK _; omega
  | succ h ih =>
    intro K hK hp
    rw [List.range_succ, List.filter_append]
    rcases Nat.lt_or_ge K h with hKh | hKh
    · rw [ih K hKh (fun k hk => hp k (by omega))]
      have hph : p h = false := by
        cases hh : p h
        · rfl
        · have := (hp h (by omega)).mp hh
          omega
      simp [hph]
    · have hKeq : K = h := by omega
      subst hKeq
      have h1 : (List.range K).filter p = [] := by
        rw [List.filter_eq_nil_iff]
        intro a ha
        rw [List.mem_range] at ha
        intro hpa
        have := (hp a (by omega)).mp hpa
        omega
      have h2 : p K = true := (hp K (by omega)).mpr rfl
      rw [h1]
      simp [h2]

theorem getLastD_mem_cons :
    ∀ (as : List Nat) (a : Nat), as.getLastD a ∈ a :: as := by
  intro as
  induction as with
  | nil => intro a; simp
  | cons x xs ih =>
    intro a
    rw [List.getLastD_cons]
    have := ih x
    simp only [List.mem_cons] at this ⊢
    tauto

theorem groupRuns_append (a : Nat) (as : List Nat) (y : Nat) (vs : List Nat)
    (hy : y ≠ as.getLastD a + 1) :
    groupRuns ((a :: as) ++ y :: vs)
      = groupRuns (a :: as) ++ groupRuns (y :: vs) := by
  rw [List.cons_append, groupRuns, groupRunsAux_split as a [a] y vs hy]
  rfl

/-- Grouping a free-index list that decomposes as "indices below `l` with
a gap before `l`, the full run `[l, r]`, indices above `r + 1`" yields the
run `[l, r]` as one of its groups, with every other group entirely on one
side of it. -/
theorem groupRuns_decomp (l n r : Nat) (A' B' : List Nat) (hn : 0 < n)
    (hlnr : l + n = r + 1)
    (hA'x : ∀ x ∈ A', x + 1 < l)
    (hB'x : ∀ x ∈ B', r + 2 ≤ x) :
    ∃ A B : List (List Nat),
      groupRuns (A' ++ (List.range' l n ++ B')) = A ++ List.range' l n :: B ∧
      (∀ run ∈ A, ∀ x ∈ run, x < l) ∧
      (∀ run ∈ B, ∀ x ∈ run, r < x) := by
  obtain ⟨k, hk⟩ : ∃ k, n = k + 1 := ⟨n - 1, by omega⟩
  have hmidcons : List.range' l n = l :: List.range' (l + 1) k := by
    rw [hk, List.range'_succ]
  have key : ∃ B, groupRuns (List.range' l n ++ B')
      = List.range' l n :: B ∧ (∀ run ∈ B, ∀ x ∈ run, r < x) := by
    match B' with
    | [] =>
      refine ⟨[], ?_, by simp⟩
      rw [List.append_nil, groupRuns_consec l n hn]
    | y :: ys =>
      refine ⟨groupRuns (y :: ys), ?_, ?_⟩
      · rw [hmidcons, groupRuns_append l (List.range' (l + 1) k) y ys ?hy]
        · rw [← hmidcons, groupRuns_consec l n hn]
          rfl
        case hy =>
          have hy2 : r + 2 ≤ y := hB'x y (by simp)
          rw [getLastD_range' k l]
          omega
      · intro run hrun x hx
        have hxmem : x ∈ (groupRuns (y :: ys)).flatten :=
          List.mem_flatten_of_mem hrun hx
        rw [groupRuns_flatten] at hxmem
        have := hB'x x hxmem
        omega
  obtain ⟨B, hgB, hBbound⟩ := key
  match A' with
  | [] =>
    refine ⟨[], B, ?_, by simp, hBbound⟩
    rw [List.nil_append, hgB, List.nil_append]
  | a :: as =>
    refine ⟨groupRuns (a :: as), B, ?_, ?_, hBbound⟩
    · have htail : List.range' l n ++ B'
          = l :: (List.range' (l + 1) k ++ B') := by
        rw [hmidcons, List.cons_append]
      rw [htail, groupRuns_append a as l (List.range' (l + 1) k ++ B') ?hl]
      · rw [← htail, hgB]
      case hl =>
        intro heq
        have hgmem : as.getLastD a ∈ a :: as := getLastD_mem_cons as a
        have := hA'x _ hgmem
        omega
    · intro run hrun x hx
      have hxmem : x ∈ (groupRuns (a :: as)).flatten :=
        List.mem_flatten_of_mem hrun hx
      rw [groupRuns_flatten] at hxmem
      have := hA'x x hxmem
      omega

/-- For a free block `b`, `Memory.contiguous` returns some runs strictly
left of `b`'s maximal free run, that maximal run itself, and some runs
strictly right of it. -/
theorem contiguous_of_free (m : Memory) (b : Nat) (hb : freeAt m b = true) :
    ∃ A B : List (List Nat),
      contiguous m = Option.some
        (A ++ (List.range' (regionLeft m b)
          (regionRight m b + 1 - regionLeft m b)) :: B) ∧
      (∀ run ∈ A, ∀ x ∈ run, x < regionLeft m b) ∧
      (∀ run ∈ B, ∀ x ∈ run, regionRight m b < x) := by
  obtain ⟨hbr, hrlt, hfree, hnext⟩ := regionRight_spec m b hb
  have hlb : regionLeft m b ≤ b := regionLeft_le m b
  have hbound := regionLeft_boundary m b
  have hdecomp := freeIdx_decomp m b hb
  rw [List.append_assoc] at hdecomp
  have hA'x : ∀ x ∈ (List.range (regionLeft m b)).filter
      (fun i => m.available.getD i false), x + 1 < regionLeft m b := by
    intro x hx
    rw [List.mem_filter, List.mem_range] at hx
    obtain ⟨hx1, hx2⟩ := hx
    rcases hbound with h0 | hnf
    · omega
    · have hxne : x ≠ regionLeft m b - 1 := by
        intro hxeq
        rw [← hxeq] at hnf
        rw [freeAt] at hnf
        rw [hnf] at hx2
        cases hx2
      omega
  have hB'x : ∀ x ∈ (List.range' (regionRight m b + 1)
      (m.available.length - (regionRight m b + 1))).filter
      (fun i => m.available.getD i false), regionRight m b + 2 ≤ x := by
    intro x hx
    rw [List.mem_filter, mem_range1] at hx
    obtain ⟨⟨hx1, _⟩, hpx⟩ := hx
    rcases Nat.eq_or_lt_of_le hx1 with heq | hlt
    · subst heq
      rw [freeAt] at hnext
      rw [hnext] at hpx
      cases hpx
    · omega
  obtain ⟨A, B, hg, hAb, hBb⟩ := groupRuns_decomp (regionLeft m b)
    (regionRight m b + 1 - regionLeft m b) (regionRight m b)
    ((List.range (regionLeft m b)).filter (fun i => m.available.getD i false))
    ((List.range' (regionRight m b + 1)
      (m.available.length - (regionRight m b + 1))).filter
      (fun i => m.available.getD i false))
    (by omega) (by omega) hA'x hB'x
  rw [← hdecomp] at hg
  refine ⟨A, B, ?_, hAb, hBb⟩
  rw [contiguous, hg, if_neg]
  intro hcond
  obtain ⟨hc1, hc2⟩ := hcond
  rw [List.length_append, List.length_cons] at hc1
  have hA0 : A.length = 0 := by omega
  have hB0 : B.length = 0 := by omega
  rw [List.length_eq_zero] at hA0 hB0
  subst hA0
  subst hB0
  rw [List.nil_append] at hc2
  simp only [List.headD_cons, List.length_range'] at hc2
  omega

theorem pywrite_nat (l : List Bool) (b : Nat) (v : Bool) (hb : b < l.length) :
    pywrite l (Option.some (b : Int)) v = Except.ok (l.set b v) := by
  have h1 : ¬ ((b : Int) < 0) := by omega
  have h2 : (0 : Int) ≤ (b : Int) ∧ (b : Int) < (l.length : Int) :=
    ⟨by omega, by omega⟩
  simp only [pywrite, h1, if_false]
  rw [if_pos h2]
  rw [Int.toNat_ofNat]

theorem pywrite_neg (l : List Bool) (b : Int) (v : Bool)
    (h1 : -(l.length : Int) ≤ b) (h2 : b < 0) :
    pywrite l (Option.some b) v
      = Except.ok (l.set ((l.length : Int) + b).toNat v) := by
  simp only [pywrite, h2, if_true]
  rw [if_pos ⟨by omega, by omega⟩]

theorem pyContains_of_mem (sub : List Nat) (b : Nat) (h : b ∈ sub) :
    pyContains sub (Option.some (b : Int)) = true := by
  rw [pyContains, List.any_eq_true]
  exact ⟨b, h, by simp⟩

theorem pyContains_eq_false (sub : List Nat) (i : Int)
    (h : ∀ x ∈ sub, (x : Int) ≠ i) :
    pyContains sub (Option.some i) = false := by
  rw [pyContains, List.any_eq_false]
  intro x hx
  simp only [beq_iff_eq]
  exact h x hx

theorem allocate_some_sel (m : Memory) (ob : Option Int)
    (rs : List (List Nat)) (sel : List Nat)
    (hg : contiguous m = Option.some rs)
    (hsel : rs.getD (argmaxBool
      (rs.map (fun sub => pyContains sub ob))) [] = sel) :
    allocate m ob = allocateSel m ob sel := by
  unfold allocate
  rw [hg]
  show allocateSel m ob
    (rs.getD (argmaxBool (rs.map (fun sub => pyContains sub ob))) [])
    = allocateSel m ob sel
  rw [hsel]

theorem allocateSel_multi (m : Memory) (ob : Option Int) (sel : List Nat)
    (K : Nat) (hlen : 1 < sel.length)
    (hfil : (List.range sel.length).filter
      (fun k => pyEq (sel.getD k 0) ob) = [K]) :
    allocateSel m ob sel
      = (pywrite m.available ob false).map (fun av =>
        (⟨(sel.map (fun i => m.pages.getD i 0)).sum,
          Option.some (((sel.map (fun i => m.pages.getD i 0)).take K).sum,
            ((sel.map (fun i => m.pages.getD i 0)).drop (K + 1)).sum)⟩,
          ⟨m.pages, av⟩)) := by
  unfold allocateSel
  rw [if_pos hlen, hfil]

theorem allocateSel_multi_nomatch (m : Memory) (ob : Option Int)
    (sel : List Nat) (hlen : 1 < sel.length)
    (hfil : (List.range sel.length).filter
      (fun k => pyEq (sel.getD k 0) ob) = []) :
    allocateSel m ob sel = Except.error PyErr.valueErr := by
  unfold allocateSel
  rw [if_pos hlen, hfil]

theorem allocateSel_single (m : Memory) (ob : Option Int) (r : Nat) :
    allocateSel m ob [r]
      = (pywrite m.available ob false).map (fun av =>
        (⟨m.pages.getD r 0, Option.none⟩, ⟨m.pages, av⟩)) := by
  unfold allocateSel
  rw [if_neg (by simp)]

/-- C3: allocating a free block `b` succeeds; `before` is the page-sum of
the maximal contiguous free region containing `b`, `after` is the pair of
page-sums obtained by splitting that region at `b` when the region has
more than one block and `none` when the region is exactly `b`, and the
only state change is `available[b] = False`. -/
theorem allocate_free_region_sums (m : Memory) (b : Nat)
    (hwf : m.pages.length = m.available.length)
    (hb : freeAt m b = true) :
    allocate m (Option.some (b : Int)) = Except.ok
      (⟨pageSum m (List.range' (regionLeft m b)
          (regionRight m b + 1 - regionLeft m b)),
        if regionLeft m b = regionRight m b then Option.none
        else Option.some
          (pageSum m (List.range' (regionLeft m b) (b - regionLeft m b)),
            pageSum m (List.range' (b + 1) (regionRight m b - b)))⟩,
        ⟨m.pages, m.available.set b false⟩) := by
  obtain ⟨A, B, hg, hAb, hBb⟩ := contiguous_of_free m b hb
  obtain ⟨hbr, hrlt, hfree, hnext⟩ := regionRight_spec m b hb
  have hlb := regionLeft_le m b
  have hblen : b < m.available.length := freeAt_lt m b hb
  set l := regionLeft m b with hldef
  set r := regionRight m b with hrdef
  have hmem_mid : b ∈ List.range' l (r + 1 - l) := by
    rw [mem_range1]
    omega
  have hcontains_A : ∀ sub ∈ A,
      pyContains sub (Option.some (b : Int)) = false := by
    intro sub hsub
    apply pyContains_eq_false
    intro x hx hc
    have hxb : x = b := by exact_mod_cast hc
    have := hAb sub hsub x hx
    omega
  have hcontains_B : ∀ sub ∈ B,
      pyContains sub (Option.some (b : Int)) = false := by
    intro sub hsub
    apply pyContains_eq_false
    intro x hx hc
    have hxb : x = b := by exact_mod_cast hc
    have := hBb sub hsub x hx
    omega
  have hchunk : argmaxBool ((A ++ (List.range' l (r + 1 - l)) :: B).map
      (fun sub => pyContains sub (Option.some (b : Int)))) = A.length := by
    rw [List.map_append, List.map_cons,
      pyContains_of_mem _ _ hmem_mid]
    have := argmaxBool_prefix_false
      (A.map (fun sub => pyContains sub (Option.some (b : Int))))
      (B.map (fun sub => pyContains sub (Option.some (b : Int))))
      (by
        intro x hx
        rw [List.mem_map] at hx
        obtain ⟨sub, hsub, rfl⟩ := hx
        exact hcontains_A sub hsub)
    rw [this, List.length_map]
  have hsel : (A ++ (List.range' l (r + 1 - l)) :: B).getD
      (argmaxBool ((A ++ (List.range' l (r + 1 - l)) :: B).map
        (fun sub => pyContains sub (Option.some (b : Int))))) []
      = List.range' l (r + 1 - l) := by
    rw [hchunk]
    rw [List.getD_append_right A _ [] A.length (Nat.le_refl _)]
    rw [Nat.sub_self]
    rfl
  rw [allocate_some_sel m (Option.some (b : Int)) _ _ hg hsel]
  rcases Nat.eq_or_lt_of_le (Nat.le_trans hlb hbr) with hlr | hlr
  · -- singleton region: l = r = b
    have hmid1 : List.range' l (r + 1 - l) = [l] := by
      rw [show r + 1 - l = 1 by omega]
      exact List.range'_one
    have hbl : b = l := by omega
    rw [hmid1, allocateSel_single m _ l]
    rw [pywrite_nat m.available b false hblen]
    rw [if_pos hlr]
    show Except.ok (AllocOut.mk (m.pages.getD l 0) Option.none,
      Memory.mk m.pages (m.available.set b false)) = _
    have hps : pageSum m [l] = m.pages.getD l 0 := by
      rw [pageSum]
      simp
    rw [hps]
  · -- multi-block region
    have hlen : 1 < (List.range' l (r + 1 - l)).length := by
      rw [List.length_range']
      omega
    have hfil : (List.range (List.range' l (r + 1 - l)).length).filter
        (fun k => pyEq ((List.range' l (r + 1 - l)).getD k 0)
          (Option.some (b : Int))) = [b - l] := by
      apply filter_range_eq_singleton
      · rw [List.length_range']
        omega
      · intro k hk
        rw [List.length_range'] at hk
        have hgetk : (List.range' l (r + 1 - l)).getD k 0 = l + k := by
          rw [List.getD_eq_getElem _ _ (by rw [List.length_range']; omega)]
          exact List.getElem_range'_1 k (by rw [List.length_range']; omega)
        rw [hgetk]
        show ((((l + k : Nat) : Int) == (b : Int)) = true ↔ k = b - l)
        rw [beq_iff_eq]
        constructor
        · intro hc
          have : l + k = b := by exact_mod_cast hc
          omega
        · intro hc
          have : l + k = b := by omega
          exact_mod_cast this
    rw [allocateSel_multi m _ _ (b - l) hlen hfil]
    rw [pywrite_nat m.available b false hblen]
    rw [if_neg (by omega : ¬ l = r)]
    show Except.ok _ = _
    rw [← List.map_take, ← List.map_drop, take_range1, drop_range1]
    rw [show min (b - l) (r + 1 - l) = b - l by omega]
    rw [show l + (b - l + 1) = b + 1 by omega]
    rw [show r + 1 - l - (b - l + 1) = r - b by omega]
    rfl

/-- C3 witness: the spec's scenario — pool `[5, 10, 5, 20]` all free,
allocate block 1: the region is `[0, 1, 2, 3]`, `before = 40` and
`after = (5, 25)`. -/
theorem allocate_free_region_sums_witness :
    ((⟨[5, 10, 5, 20], [true, true, true, true]⟩ : Memory).pages.length =
        (⟨[5, 10, 5, 20], [true, true, true, true]⟩ : Memory).available.length ∧
      freeAt ⟨[5, 10, 5, 20], [true, true, true, true]⟩ 1 = true ∧
      allocate ⟨[5, 10, 5, 20], [true, true, true, true]⟩
          (Option.some ((1 : Nat) : Int))
        = Except.ok (⟨40, Option.some (5, 25)⟩,
          ⟨[5, 10, 5, 20], [true, false, true, true]⟩)) := by
  refine ⟨rfl, rfl, ?_⟩
  have h := allocate_free_region_sums
    ⟨[5, 10, 5, 20], [true, true, true, true]⟩ 1 rfl rfl
  rw [h]
  rfl

theorem groupRunsAux_ne_nil_list :
    ∀ (l : List Nat) (prev : Nat) (cur : List Nat),
      groupRunsAux prev cur l ≠ [] := by
  intro l
  induction l with
  | nil => intro prev cur; simp [groupRunsAux]
  | cons y ys ih =>
    intro prev cur
    rw [groupRunsAux]
    by_cases h : y = prev + 1
    · rw [if_pos h]
      exact ih y (y :: cur)
    · rw [if_neg h]
      simp

theorem groupRuns_ne_nil_list : ∀ xs : List Nat, groupRuns xs ≠ [] := by
  intro xs
  match xs with
  | [] => simp [groupRuns]
  | x :: rest => exact groupRunsAux_ne_nil_list rest x [x]

/-- C4 (amended): allocating an already-allocated block `b` never changes
the pool; what it returns depends on the shape of the first contiguous
free region (`np.argmax` of the all-`False` membership list is 0): with no
free block it raises `TypeError`, with a multi-block first region it
raises `ValueError` from `.item()`, and with a single-block first region
it silently succeeds, reporting that unrelated region's page count. -/
theorem allocate_allocated_noop (m : Memory) (b : Nat)
    (hwf : m.pages.length = m.available.length)
    (hblen : b < m.available.length)
    (halloc : m.available.getD b false = false) :
    ((freeIdx m = [] →
        allocate m (Option.some (b : Int)) = Except.error PyErr.typeErr) ∧
      (∀ rs, contiguous m = Option.some rs →
        ((1 < (rs.getD 0 []).length →
            allocate m (Option.some (b : Int)) = Except.error PyErr.valueErr) ∧
          (∀ r, rs.getD 0 [] = [r] →
            allocate m (Option.some (b : Int))
              = Except.ok (⟨m.pages.getD r 0, Option.none⟩, m))))) := by
  constructor
  · intro hfe
    have hcn : contiguous m = Option.none := by
      rw [contiguous, hfe]
      decide
    unfold allocate
    rw [hcn]
  · intro rs hrs
    have hinv : rs = groupRuns (freeIdx m) := by
      have hrs' := hrs
      simp only [contiguous] at hrs'
      split at hrs'
      · cases hrs'
      · injection hrs' with h
        exact h.symm
    have hrs_ne : rs ≠ [] := by
      rw [hinv]
      exact groupRuns_ne_nil_list _
    have hrun_free : ∀ run ∈ rs, ∀ x ∈ run, freeAt m x = true := by
      intro run hrun x hx
      have hflat : x ∈ (groupRuns (freeIdx m)).flatten :=
        List.mem_flatten_of_mem (hinv ▸ hrun) hx
      rw [groupRuns_flatten, freeIdx, List.mem_filter] at hflat
      exact hflat.2
    have hhead_mem : rs.getD 0 [] ∈ rs := by
      have h0 : 0 < rs.length := List.length_pos.mpr hrs_ne
      rw [List.getD_eq_getElem _ _ h0]
      exact List.getElem_mem _
    have hhead_ne_b : ∀ x ∈ rs.getD 0 [], x ≠ b := by
      intro x hx hxb
      subst hxb
      have := hrun_free _ hhead_mem x hx
      rw [freeAt] at this
      rw [this] at halloc
      cases halloc
    have hchunk0 : argmaxBool (rs.map
        (fun sub => pyContains sub (Option.some (b : Int)))) = 0 := by
      apply argmaxBool_all_false
      intro x hx
      rw [List.mem_map] at hx
      obtain ⟨sub, hsub, rfl⟩ := hx
      apply pyContains_eq_false
      intro y hy hc
      have hyb : y = b := by exact_mod_cast hc
      subst hyb
      have := hrun_free sub hsub y hy
      rw [freeAt] at this
      rw [this] at halloc
      cases halloc
    have hsel0 : rs.getD (argmaxBool (rs.map
        (fun sub => pyContains sub (Option.some (b : Int))))) []
        = rs.getD 0 [] := by
      rw [hchunk0]
    rw [allocate_some_sel m (Option.some (b : Int)) rs (rs.getD 0 []) hrs hsel0]
    constructor
    · intro hlen
      have hfil0 : (List.range (rs.getD 0 []).length).filter
          (fun k => pyEq ((rs.getD 0 []).getD k 0)
            (Option.some (b : Int))) = [] := by
        rw [List.filter_eq_nil_iff]
        intro k hk
        rw [List.mem_range] at hk
        have hmem : (rs.getD 0 []).getD k 0 ∈ rs.getD 0 [] := by
          rw [List.getD_eq_getElem _ _ hk]
          exact List.getElem_mem _
        have hne := hhead_ne_b _ hmem
        show ¬ (pyEq ((rs.getD 0 []).getD k 0) (Option.some (b : Int)) = true)
        rw [pyEq, beq_iff_eq]
        intro hc
        exact hne (by exact_mod_cast hc)
      exact allocateSel_multi_nomatch m _ _ hlen hfil0
    · intro r hsingle
      rw [hsingle, allocateSel_single m _ r]
      rw [pywrite_nat m.available b false hblen]
      rw [list_set_eq_self m.available b halloc]
      rfl

/-- C4 counterexample: allocating the already-allocated block 1 of the
pool `pages = [5, 7]`, `available = [True, False]` does not fail — it
returns successfully with the unrelated singleton region's data, refuting
the claim that such a call always reports failure. -/
theorem allocate_allocated_counterexample :
    (allocate ⟨[5, 7], [true, false]⟩ (Option.some ((1 : Nat) : Int))
        = Except.ok (⟨5, Option.none⟩, ⟨[5, 7], [true, false]⟩) ∧
      (⟨[5, 7], [true, false]⟩ : Memory).available.getD 1 false = false) := by
  exact ⟨rfl, rfl⟩

/-- C4 witness: the amended theorem applied to the counterexample pool:
the first free region is the singleton `[0]`, so the call returns that
region's page count and leaves the pool unchanged. -/
theorem allocate_allocated_noop_witness :
    ((⟨[5, 7], [true, false]⟩ : Memory).pages.length =
        (⟨[5, 7], [true, false]⟩ : Memory).available.length ∧
      1 < (⟨[5, 7], [true, false]⟩ : Memory).available.length ∧
      (⟨[5, 7], [true, false]⟩ : Memory).available.getD 1 false = false ∧
      allocate ⟨[5, 7], [true, false]⟩ (Option.some ((1 : Nat) : Int))
        = Except.ok (⟨5, Option.none⟩, ⟨[5, 7], [true, false]⟩)) := by
  refine ⟨rfl, by decide, rfl, ?_⟩
  have h := ((allocate_allocated_noop ⟨[5, 7], [true, false]⟩ 1 rfl
    (by decide) rfl).2 [[0]] rfl).2 0 rfl
  rw [h]
  rfl

/-- C10 counterexample: `allocate(-1)` on a fully free two-block pool does
not silently operate on block `N - 1 = 1`: the region lookup compares `-1`
against the region `[0, 1]` without wraparound, finds no match, and
`.item()` on the empty match raises `ValueError` instead. -/
theorem allocate_negative_counterexample :
    allocate ⟨[1, 1], [true, true]⟩ (Option.some (-1))
      = Except.error PyErr.valueErr := by
  rfl

/-- C10 (amended): `free(b)` for `b` in `[-N, 0)` performs no bounds
validation and marks block `N + b` free, as claimed; `allocate(b)` also
never validates `b`, but only its final availability write wraps to block
`N + b` — its region lookup matches `b` against nothing, so it selects the
first free region and succeeds (writing block `N + b`) only when that
region is a single block. -/
theorem negative_index_semantics (m : Memory) (b : Int)
    (hwf : m.pages.length = m.available.length)
    (h1 : -(m.available.length : Int) ≤ b) (h2 : b < 0) :
    ((free m b = Except.ok
        ⟨m.pages, m.available.set ((m.available.length : Int) + b).toNat true⟩) ∧
      (∀ rs r, contiguous m = Option.some rs → rs.getD 0 [] = [r] →
        allocate m (Option.some b) = Except.ok
          (⟨m.pages.getD r 0, Option.none⟩,
            ⟨m.pages, m.available.set
              ((m.available.length : Int) + b).toNat false⟩))) := by
  constructor
  · rw [free, pywrite_neg m.available b true h1 h2]
    rfl
  · intro rs r hrs hsingle
    have hchunk0 : argmaxBool (rs.map
        (fun sub => pyContains sub (Option.some b))) = 0 := by
      apply argmaxBool_all_false
      intro x hx
      rw [List.mem_map] at hx
      obtain ⟨sub, hsub, rfl⟩ := hx
      apply pyContains_eq_false
      intro y hy hc
      have hy0 : (0 : Int) ≤ (y : Int) := Int.natCast_nonneg y
      omega
    have hsel0 : rs.getD (argmaxBool (rs.map
        (fun sub => pyContains sub (Option.some b)))) [] = [r] := by
      rw [hchunk0, hsingle]
    rw [allocate_some_sel m (Option.some b) rs [r] hrs hsel0]
    rw [allocateSel_single m _ r]
    rw [pywrite_neg m.available b false h1 h2]
    rfl

/-- C10 witness: pool `pages = [2, 3]`, `available = [False, True]`,
`b = -1`: `free(-1)` frees block 1 and, the first free region being the
singleton `[1]`, `allocate(-1)` succeeds and allocates block 1. -/
theorem negative_index_semantics_witness :
    ((⟨[2, 3], [false, true]⟩ : Memory).pages.length =
        (⟨[2, 3], [false, true]⟩ : Memory).available.length ∧
      -(((⟨[2, 3], [false, true]⟩ : Memory).available.length : Int)) ≤ -1 ∧
      (-1 : Int) < 0 ∧
      free ⟨[2, 3], [false, true]⟩ (-1)
        = Except.ok ⟨[2, 3], [false, true]⟩ ∧
      allocate ⟨[2, 3], [false, true]⟩ (Option.some (-1))
        = Except.ok (⟨3, Option.none⟩, ⟨[2, 3], [false, false]⟩)) := by
  have h := negative_index_semantics ⟨[2, 3], [false, true]⟩ (-1) rfl
    (by decide) (by decide)
  refine ⟨rfl, by decide, by decide, ?_, ?_⟩
  · rw [h.1]
    rfl
  · rw [h.2 [[1]] 1 rfl rfl]
    rfl

/-- The `Result` record the allocators build (`requests.Result` as used in
`allocation.py`): its `success` field, the selected block, and the
region-size report from `Memory.allocate`.  The reporting-only `pages` and
`start` fields are omitted: on the `fit = None` path they are numpy arrays
rather than scalars and they play no role in any claim. -/
structure Result where
  success : Bool
  block : Option Nat
  before : Option Nat
  after : Option (Nat × Nat)
  deriving Repr, DecidableEq

/-- `FirstFit.call` on an `ALLOCATE` request (`allocation.py` lines
88-103): `fit = first_fit(block)`, then `allocate(fit)` — with no check
for `fit is None` — and a `Result` built with `success=True`
unconditionally. -/
def firstFitCallAllocate (m : Memory) (b : Nat) :
    Except PyErr (Result × Memory) :=
  (allocate m ((first_fit m b).map (fun j => (j : Int)))).map
    (fun om => (⟨true, first_fit m b, Option.some om.1.before, om.1.after⟩,
      om.2))

/-- C8's embedding of `Memory.get_page_address` (`memory.py` lines 56-57):
`(np.cumsum(self.pages) - self.pages[0])[b]`, i.e. the sum of
`pages[0..b]` minus `pages[0]` — not the sum of the pages before `b`. -/
def get_page_address (m : Memory) (b : Nat) : Int :=
  ((m.pages.take (b + 1)).sum : Int) - (m.pages.headD 0 : Int)

/-- C7: the allocators have no failure path.  On the pool
`pages = [5, 3]`, `available = [False, True]` with target block 0 (pages
5), `first_fit` returns `None`; the claim requires `success = False` with
no mutation, but the code returns `success = True` — and the final
`available[None] = False` broadcast-clears the whole availability array,
so the pool is mutated as well. -/
theorem allocator_none_fit_not_failure :
    (first_fit ⟨[5, 3], [false, true]⟩ 0 = Option.none ∧
      firstFitCallAllocate ⟨[5, 3], [false, true]⟩ 0
        = Except.ok
          (⟨true, Option.none, Option.some 3, Option.none⟩,
            ⟨[5, 3], [false, false]⟩) ∧
      (⟨[5, 3], [false, false]⟩ : Memory) ≠ ⟨[5, 3], [false, true]⟩) := by
  refine ⟨rfl, rfl, by decide⟩

/-- C8: `get_page_address` does not return the sum of the page sizes
before `b`.  On `pages = [5, 10]` and `b = 1` the code returns
`cumsum[1] - pages[0] = 10`, while the claimed prefix sum is 5. -/
theorem get_page_address_not_prefix_sum :
    (get_page_address ⟨[5, 10], [true, true]⟩ 1 = 10 ∧
      (((⟨[5, 10], [true, true]⟩ : Memory).pages.take 1).sum : Int) = 5 ∧
      get_page_address ⟨[5, 10], [true, true]⟩ 1
        ≠ (((⟨[5, 10], [true, true]⟩ : Memory).pages.take 1).sum : Int)) := by
  refine ⟨by decide, by decide, by decide⟩

/-- Inner loop of `itertools.groupby(available)`: maximal runs of equal
adjacent values.  Only run lengths are consumed below, so runs are kept in
reversed construction order. -/
def groupByEqAux (prev : Bool) (cur : List Bool) : List Bool → List (List Bool)
  | [] => [cur]
  | y :: ys =>
    if y == prev then groupByEqAux y (y :: cur) ys
    else cur :: groupByEqAux y [y] ys

/-- `itertools.groupby(self.available)` (used by `memory.fragmented`): the
list of maximal runs of equal adjacent values; empty for an empty array. -/
def groupByEq : List Bool → List (List Bool)
  | [] => []
  | x :: xs => groupByEqAux x [x] xs

/-- `max(sum(1 for _ in g) for _, g in groups)` in `memory.py`'s
`fragmented`: the longest run length over runs of BOTH values, free and
allocated alike — the `groupby` key is discarded, not filtered on.
Python's `max` raises on an empty pool (junk value 0 here; pools have at
least one block). -/
def max_run (l : List Bool) : Nat :=
  ((groupByEq l).map List.length).foldl Nat.max 0

/-- `Memory.fragmented` as written in `memory.py` (lines 103-113):
`0` when `num_free == 0`, else `(num_free - max_run) / num_free` with
`max_run` taken over all equal-value runs. -/
def fragmented_mem (m : Memory) : Rat :=
  let maxFree := max_run m.available
  let numFree := (m.available.filter (fun x => x)).length
  if numFree = 0 then 0
  else ((numFree : Rat) - (maxFree : Rat)) / (numFree : Rat)

/-- `Memory.fragmented(as_pages=False)` as written in `storage.py` (lines
120-134): the same formula, but the maximum is over the free runs only
(`max(g.size for g in self.contiguous())`). -/
def fragmented_storage (m : Memory) : Rat :=
  let maxFree := ((contiguousS m).map List.length).foldl Nat.max 0
  let numFree := (m.available.filter (fun x => x)).length
  if numFree = 0 then 0
  else ((numFree : Rat) - (maxFree : Rat)) / (numFree : Rat)

/-- C2: on `available = [True, False, False, False]` (reachable from a
fresh 4-block pool by allocating blocks 1, 2, 3), `memory.py`'s
`fragmented` returns `(1 - 3)/1 = -2`: the longest run it measures is the
allocated run `[False, False, False]`, so the result falls outside the
claimed range `[0, 1)` (the claimed formula gives `(1 - 1)/1 = 0`, which
is what `storage.py`'s revision computes). -/
theorem fragmented_mem_negative :
    (fragmented_mem ⟨[1, 1, 1, 1], [true, false, false, false]⟩ = -2 ∧
      fragmented_mem ⟨[1, 1, 1, 1], [true, false, false, false]⟩ < 0 ∧
      fragmented_storage ⟨[1, 1, 1, 1], [true, false, false, false]⟩ = 0) := by
  have hmax : max_run [true, false, false, false] = 3 := by decide
  have hmaxS : ((contiguousS ⟨[1, 1, 1, 1],
      [true, false, false, false]⟩).map List.length).foldl Nat.max 0 = 1 := by
    decide
  have hnum : (([true, false, false, false] : List Bool).filter
      (fun x => x)).length = 1 := by decide
  have hm : fragmented_mem ⟨[1, 1, 1, 1], [true, false, false, false]⟩
      = -2 := by
    simp only [fragmented_mem]
    norm_num [hmax, hnum]
  have hs : fragmented_storage ⟨[1, 1, 1, 1], [true, false, false, false]⟩
      = 0 := by
    simp only [fragmented_storage]
    norm_num [hmaxS, hnum]
  refine ⟨hm, by rw [hm]; norm_num, hs⟩

/-- `Memory.defragment` (`memory.py` lines 82-86): applies the index
permutation `indices = np.argsort(self.available)` to both `available`
and `pages`.  The permutation itself is produced by numpy, so it enters
as a parameter constrained by `argsortSpec`. -/
def defragment (m : Memory) (p : List Nat) : Memory :=
  ⟨p.map (fun i => m.pages.getD i 0), p.map (fun i => m.available.getD i false)⟩

/-- Contract of `np.argsort` on a boolean array, from the numpy
documentation (the sort is library code, not part of this repository):
the result is a permutation of `[0, N)` whose application sorts the array
ascending, i.e. `False` (allocated) before `True` (free); the default
`quicksort` leaves the relative order of equal keys unspecified. -/
def argsortSpec (l : List Bool) (p : List Nat) : Prop :=
  p.Perm (List.range l.length) ∧
    (p.map (fun i => l.getD i false)).Pairwise (fun a b => a = true → b = true)

/-- C9: after `defragment`, allocated blocks occupy the lowest indices and
free blocks the highest: whenever `i < j` and position `i` is free,
position `j` is free too — for every permutation satisfying the
`np.argsort` contract. -/
theorem defragment_allocated_first (m : Memory) (p : List Nat)
    (hspec : argsortSpec m.available p) :
    ∀ i j, i < j → j < (defragment m p).available.length →
      (defragment m p).available.getD i false = true →
      (defragment m p).available.getD j false = true := by
  obtain ⟨-, hsorted⟩ := hspec
  intro i j hij hj hi
  have havail : (defragment m p).available
      = p.map (fun k => m.available.getD k false) := rfl
  rw [havail] at hi hj ⊢
  have hjlen : j < (p.map (fun k => m.available.getD k false)).length := hj
  have hilen : i < (p.map (fun k => m.available.getD k false)).length := by
    omega
  rw [List.pairwise_iff_getElem] at hsorted
  have hmono := hsorted i j hilen hjlen hij
  rw [List.getD_eq_getElem _ _ hilen] at hi
  rw [List.getD_eq_getElem _ _ hjlen]
  exact hmono hi

/-- C9 witness: pool `pages = [1, 2]`, `available = [True, False]`; the
permutation `[1, 0]` satisfies the argsort contract and the defragmented
availability `[False, True]` is allocated-first. -/
theorem defragment_allocated_first_witness :
    (argsortSpec (⟨[1, 2], [true, false]⟩ : Memory).available [1, 0] ∧
      ((defragment ⟨[1, 2], [true, false]⟩ [1, 0]).available.getD 0 false = true →
        (defragment ⟨[1, 2], [true, false]⟩ [1, 0]).available.getD 1 false
          = true)) := by
  have hspec : argsortSpec (⟨[1, 2], [true, false]⟩ : Memory).available [1, 0] := by
    constructor
    · decide
    · decide
  exact ⟨hspec, defragment_allocated_first ⟨[1, 2], [true, false]⟩ [1, 0]
    hspec 0 1 (by decide) (by decide)⟩
